import Mathlib

/-!
# Verification of the codingame-weights-optimizer core

Shallow embedding of the repository source (files `optimizer.py` and
`inference.py`): the base-8192 text codec built on a fixed 8192-symbol
alphabet of CJK ideographs, and the float16 precision reducer.

Modelling conventions:
* a Python `bytes` value is a `List Nat` whose members are below 256;
* a Python text string is a `List Nat` of Unicode code points;
* the bit strings the code manipulates (strings over the characters
  0 and 1) are `List Bool` values, most significant bit first;
* Python code that can raise (the `CHAR_TO_VAL[ch]` dictionary lookup,
  which raises `KeyError` on an unknown symbol) is modelled in `Option`,
  with `none` for the raised exception and no partial output;
* a NumPy array is modelled by its dtype kind character, its dtype item
  size in bytes, its shape, and its raw element values; the element-wise
  IEEE-754 narrowing performed by `astype(np.float16)` is abstracted as a
  conversion parameter, since no claim depends on the numeric values of
  converted floats.
-/

/-- Big-endian fixed-width binary expansion: `natToBits w n` is the list of
`w` bits of `n`, most significant first — the model of the Python format
specifier producing a zero-padded width-`w` binary string (`f"{n:08b}"`,
`f"{n:013b}"`) on the range `n < 2 ^ w` where the code uses it. -/
def natToBits : Nat → Nat → List Bool
  | 0, _ => []
  | w + 1, n => natToBits w (n / 2) ++ [n % 2 == 1]

/-- Big-endian interpretation of a bit string as an unsigned integer — the
model of Python `int(bits, 2)`. -/
def bitsToNat (l : List Bool) : Nat :=
  l.foldl (fun acc b => 2 * acc + (if b then 1 else 0)) 0

/-- Slicing: `chunksOf k l` is the list of slices `l[j*k : j*k + k]` for
`j = 0, 1, ...` — the model of the Python comprehension
`[bits[i:i+k] for i in range(0, len(bits), k)]`: the trailing slice is kept
even when it is shorter than `k`. -/
def chunksOf (k : Nat) (l : List α) : List (List α) :=
  (List.range ((l.length + (k - 1)) / k)).map (fun j => (l.drop (j * k)).take k)

/-- The constant `CHINESE_CHARS = [chr(0x4E00 + i) for i in range(8192)]` from
`optimizer.py`, as the list of code points. -/
def CHINESE_CHARS : List Nat :=
  (List.range 8192).map (fun i => 0x4E00 + i)

/-- The table `CHAR_TO_VAL = {ch: i for i, ch in enumerate(CHINESE_CHARS)}` from
`optimizer.py`, as an association-list lookup on code points: `none`
models the `KeyError` raised on a symbol outside the table. -/
def CHAR_TO_VAL (ch : Nat) : Option Nat :=
  (CHINESE_CHARS.enum.map (fun p => (p.2, p.1))).lookup ch

/-- Encoder `to_chinese_base8192` from `optimizer.py`: concatenate the 8-bit
big-endian expansions of the input bytes, zero-pad on the right to a
multiple of 13 bits when not already aligned, and map each 13-bit group,
read as a big-endian integer, to the symbol at that index of
`CHINESE_CHARS`. -/
def to_chinese_base8192 (data : List Nat) : List Nat :=
  let bits := data.flatMap (natToBits 8)
  let padded :=
    if bits.length % 13 ≠ 0 then
      bits ++ List.replicate (13 - bits.length % 13) false
    else bits
  (chunksOf 13 padded).map (fun c => CHINESE_CHARS.getD (bitsToNat c) 0)

/-- Decoder `from_chinese_base8192` from `optimizer.py`: look every character up in
`CHAR_TO_VAL` (failing on the first unknown symbol), concatenate the 13-bit
big-endian expansions of the values, slice into 8-bit groups, delete any
incomplete trailing group, and read each kept group as a byte. -/
def from_chinese_base8192 (text : List Nat) : Option (List Nat) := do
  let vals ← text.mapM CHAR_TO_VAL
  let bits := vals.flatMap (natToBits 13)
  let bytes_list := chunksOf 8 bits
  let full := bytes_list.filter (fun b => b.length == 8)
  return full.map bitsToNat

namespace Inference

/-- The constant `CHINESE_CHARS` as duplicated at the top of `inference.py`. -/
def CHINESE_CHARS : List Nat :=
  (List.range 8192).map (fun i => 0x4E00 + i)

/-- The table `CHAR_TO_VAL` as duplicated at the top of `inference.py`. -/
def CHAR_TO_VAL (ch : Nat) : Option Nat :=
  (CHINESE_CHARS.enum.map (fun p => (p.2, p.1))).lookup ch

/-- The second copy of `from_chinese_base8192`, from `inference.py`. -/
def from_chinese_base8192 (text : List Nat) : Option (List Nat) := do
  let vals ← text.mapM CHAR_TO_VAL
  let bits := vals.flatMap (natToBits 13)
  let bytes_list := chunksOf 8 bits
  let full := bytes_list.filter (fun b => b.length == 8)
  return full.map bitsToNat

end Inference

/-- Model of a NumPy ndarray as far as the precision reducer observes it:
the dtype kind character (`f` for floating point, `i`/`u`/`b` for integer
kinds, `c` for complex, `O` for object, ...), the dtype item size in
bytes, the shape, and the raw element values. -/
structure NDArray where
  kind : Char
  itemsize : Nat
  shape : List Nat
  data : List Nat
deriving DecidableEq

/-- Model of NumPy `v.astype(np.float16)`: the result always has dtype
`float16` (kind `f`, item size 2 bytes) and the same shape; the
element-wise IEEE-754 narrowing is abstracted as the parameter `conv`. -/
def astype_float16 (conv : Nat → Nat) (v : NDArray) : NDArray :=
  ⟨'f', 2, v.shape, v.data.map conv⟩

/-- The precision reducer `float16_dict_from_npz` from `optimizer.py`, applied to the mapping
already loaded from the archive (the `np.load` file read is the external
collaborator): `{k: (v.astype(np.float16) if v.dtype.kind == "f" else v)
for k, v in data.items()}`. -/
def float16_dict_from_npz (conv : Nat → Nat) (data : List (String × NDArray)) :
    List (String × NDArray) :=
  data.map (fun kv => (kv.1, if kv.2.kind == 'f' then astype_float16 conv kv.2 else kv.2))

/-- Default entry used with `List.getD` when indexing weight mappings. -/
def defaultEntry : String × NDArray := ("", ⟨'f', 2, [], []⟩)

/-! ## Bit-level lemmas -/

theorem natToBits_length (w n : Nat) : (natToBits w n).length = w := by
  induction w generalizing n with
  | zero => rfl
  | succ k ih => simp [natToBits, ih]

theorem bitsToNat_append_bit (l : List Bool) (b : Bool) :
    bitsToNat (l ++ [b]) = 2 * bitsToNat l + (if b then 1 else 0) := by
  simp [bitsToNat, List.foldl_append]

theorem bitsToNat_lt (l : List Bool) : bitsToNat l < 2 ^ l.length := by
  induction l using List.reverseRecOn with
  | nil => simp [bitsToNat]
  | append_singleton l b ih =>
    rw [bitsToNat_append_bit]
    simp only [List.length_append, List.length_singleton, pow_succ]
    rcases b <;> simp <;> omega

theorem bitsToNat_natToBits {w n : Nat} (h : n < 2 ^ w) :
    bitsToNat (natToBits w n) = n := by
  induction w generalizing n with
  | zero =>
    simp at h
    simp [natToBits, bitsToNat, h]
  | succ k ih =>
    have hdiv : n / 2 < 2 ^ k := by
      rw [pow_succ] at h
      omega
    rw [natToBits, bitsToNat_append_bit, ih hdiv]
    have := Nat.div_add_mod n 2
    rcases Nat.mod_two_eq_zero_or_one n with h2 | h2 <;> simp [h2] <;> omega

theorem natToBits_bitsToNat (l : List Bool) :
    natToBits l.length (bitsToNat l) = l := by
  induction l using List.reverseRecOn with
  | nil => rfl
  | append_singleton l b ih =>
    rw [bitsToNat_append_bit]
    simp only [List.length_append, List.length_singleton, natToBits]
    have hbit : (if b then 1 else 0 : Nat) < 2 := by rcases b <;> simp
    have hdiv : (2 * bitsToNat l + (if b then 1 else 0)) / 2 = bitsToNat l := by omega
    have hmod : (2 * bitsToNat l + (if b then 1 else 0)) % 2 = (if b then 1 else 0) := by
      omega
    rw [hdiv, hmod, ih]
    rcases b <;> simp

theorem bitsToNat_replicate_false (p : Nat) :
    bitsToNat (List.replicate p false) = 0 := by
  induction p with
  | zero => rfl
  | succ q ih =>
    rw [List.replicate_succ, show (false :: List.replicate q false) =
      [] ++ [false] ++ List.replicate q false by simp]
    simp only [bitsToNat, List.foldl_append] at ih ⊢
    simpa using ih

/-! ## Slicing lemmas -/

theorem chunksOf_nil (k : Nat) : chunksOf k ([] : List α) = [] := by
  unfold chunksOf
  rcases k with _ | k
  · simp
  · rw [List.length_nil, Nat.zero_add, Nat.div_eq_of_lt (by omega)]
    simp

theorem chunksOf_length (k : Nat) (l : List α) :
    (chunksOf k l).length = (l.length + (k - 1)) / k := by
  rw [chunksOf, List.length_map, List.length_range]

theorem chunksOf_eq_cons {k : Nat} (hk : 0 < k) {l : List α} (hl : k ≤ l.length) :
    chunksOf k l = l.take k :: chunksOf k (l.drop k) := by
  unfold chunksOf
  have h1 : l.length + (k - 1) - k = (l.drop k).length + (k - 1) := by
    simp only [List.length_drop]
    omega
  rw [Nat.div_eq_sub_div hk (by omega), h1, List.range_succ_eq_map]
  simp only [List.map_cons, Nat.zero_mul, List.drop_zero, List.map_map]
  congr 1
  apply List.map_congr_left
  intro j _
  simp only [Function.comp_apply, List.drop_drop]
  congr 2
  rw [Nat.succ_mul]
  omega

theorem chunksOf_eq_singleton {k : Nat} {l : List α} (hne : l ≠ [])
    (hl : l.length ≤ k) : chunksOf k l = [l] := by
  have hpos : 0 < l.length := List.length_pos.mpr hne
  have hk : 0 < k := by omega
  unfold chunksOf
  have hcount : (l.length + (k - 1)) / k = 1 := by
    rw [Nat.div_eq_sub_div hk (by omega),
      show l.length + (k - 1) - k = l.length - 1 by omega,
      Nat.div_eq_of_lt (by omega)]
  rw [hcount]
  simp [List.range_succ, List.take_of_length_le hl]

theorem chunksOf_append_left {k : Nat} (hk : 0 < k) (l1 l2 : List α)
    (h : k ∣ l1.length) :
    chunksOf k (l1 ++ l2) = chunksOf k l1 ++ chunksOf k l2 := by
  rcases eq_or_ne l1 [] with rfl | hne
  · simp [chunksOf_nil]
  · have hpos : 0 < l1.length := List.length_pos.mpr hne
    have hkle : k ≤ l1.length := Nat.le_of_dvd hpos h
    have hd : k ∣ (l1.drop k).length := by
      rw [List.length_drop]
      exact Nat.dvd_sub' h (dvd_refl k)
    rw [chunksOf_eq_cons hk (l := l1 ++ l2) (by rw [List.length_append]; omega),
      List.take_append_of_le_length hkle, List.drop_append_of_le_length hkle,
      chunksOf_eq_cons hk hkle, List.cons_append,
      chunksOf_append_left hk (l1.drop k) l2 hd]
termination_by l1.length
decreasing_by simp [List.length_drop]; omega

theorem chunksOf_flatMap {k : Nat} (hk : 0 < k) (f : β → List α)
    (hf : ∀ x, (f x).length = k) (l : List β) :
    chunksOf k (l.flatMap f) = l.map f := by
  induction l with
  | nil => simp [chunksOf_nil]
  | cons a as ih =>
    have hne : f a ≠ [] := by
      intro hnil
      have := hf a
      rw [hnil] at this
      simp at this
      omega
    rw [List.flatMap_cons, chunksOf_append_left hk (f a) _ (by rw [hf a]),
      chunksOf_eq_singleton hne (le_of_eq (hf a)), ih]
    rfl

theorem flatMap_map_chunksOf {k : Nat} (hk : 0 < k) (g : List α → β) (f : β → List α)
    (hfg : ∀ c : List α, c.length = k → f (g c) = c) (l : List α) (h : k ∣ l.length) :
    ((chunksOf k l).map g).flatMap f = l := by
  rcases eq_or_ne l [] with rfl | hne
  · simp [chunksOf_nil]
  · have hkle : k ≤ l.length := Nat.le_of_dvd (List.length_pos.mpr hne) h
    have hd : k ∣ (l.drop k).length := by
      rw [List.length_drop]
      exact Nat.dvd_sub' h (dvd_refl k)
    rw [chunksOf_eq_cons hk hkle]
    simp only [List.map_cons, List.flatMap_cons]
    rw [hfg _ (by rw [List.length_take]; omega),
      flatMap_map_chunksOf hk g f hfg (l.drop k) hd, List.take_append_drop]
termination_by l.length
decreasing_by simp [List.length_drop]; omega

theorem length_filter_chunksOf {k : Nat} (hk : 0 < k) (l : List α) :
    ((chunksOf k l).filter (fun c => c.length == k)).length = l.length / k := by
  rcases eq_or_ne l [] with rfl | hne
  · simp [chunksOf_nil]
  · rcases le_or_lt k l.length with hkle | hlt
    · rw [chunksOf_eq_cons hk hkle, List.filter_cons]
      have htake : ((l.take k).length == k) = true := by
        rw [beq_iff_eq, List.length_take]
        omega
      rw [htake]
      simp only [if_true, List.length_cons,
        length_filter_chunksOf hk (l.drop k), List.length_drop]
      rw [Nat.div_eq_sub_div hk hkle]
    · rw [chunksOf_eq_singleton hne (le_of_lt hlt), List.filter_cons]
      have htake : (l.length == k) = false := by
        rw [beq_eq_false_iff_ne]
        omega
      rw [htake]
      simp [Nat.div_eq_of_lt hlt]
termination_by l.length
decreasing_by simp [List.length_drop]; omega

theorem length_mem_chunksOf {k : Nat} (hk : 0 < k) {l : List α} (h : k ∣ l.length)
    {c : List α} (hc : c ∈ chunksOf k l) : c.length = k := by
  rcases eq_or_ne l [] with rfl | hne
  · rw [chunksOf_nil] at hc
    exact absurd hc (List.not_mem_nil c)
  · have hkle : k ≤ l.length := Nat.le_of_dvd (List.length_pos.mpr hne) h
    have hd : k ∣ (l.drop k).length := by
      rw [List.length_drop]
      exact Nat.dvd_sub' h (dvd_refl k)
    rw [chunksOf_eq_cons hk hkle] at hc
    rcases List.mem_cons.mp hc with rfl | hmem
    · rw [List.length_take]
      omega
    · exact length_mem_chunksOf hk hd hmem
termination_by l.length
decreasing_by simp [List.length_drop]; omega

theorem flatMap_length_const {k : Nat} (f : β → List α) (l : List β)
    (hf : ∀ x ∈ l, (f x).length = k) : (l.flatMap f).length = k * l.length := by
  induction l with
  | nil => simp
  | cons a as ih =>
    rw [List.flatMap_cons, List.length_append, hf a (by simp),
      ih (fun x hx => hf x (by simp [hx])), List.length_cons]
    ring

/-! ## Alphabet lemmas -/

theorem enum_map_range (n : Nat) (f : Nat → Nat) :
    ((List.range n).map f).enum = (List.range n).map (fun i => (i, f i)) := by
  rw [List.enum_eq_zip_range, List.length_map, List.length_range]
  calc (List.range n).zip ((List.range n).map f)
      = ((List.range n).map id).zip ((List.range n).map f) := by rw [List.map_id]
    _ = (List.range n).map (fun i => (id i, f i)) := List.zip_map' id f _
    _ = (List.range n).map (fun i => (i, f i)) := rfl

theorem chinese_table_eq :
    CHINESE_CHARS.enum.map (fun p => (p.2, p.1)) =
      (List.range 8192).map (fun i => (0x4E00 + i, i)) := by
  rw [CHINESE_CHARS, enum_map_range, List.map_map]
  rfl

theorem lookup_range_map (a : Nat) :
    ∀ (n s ch : Nat), List.lookup ch ((List.range' s n).map (fun i => (a + i, i))) =
      if a + s ≤ ch ∧ ch < a + s + n then some (ch - a) else none := by
  intro n
  induction n with
  | zero =>
    intro s ch
    rw [if_neg (by omega)]
    rfl
  | succ m ih =>
    intro s ch
    rw [show List.range' s (m + 1) = s :: List.range' (s + 1) m from rfl]
    simp only [List.map_cons, List.lookup_cons]
    by_cases h : ch = a + s
    · have hbeq : (ch == a + s) = true := beq_iff_eq.mpr h
      simp only [hbeq]
      rw [if_pos (by omega)]
      congr 1
      omega
    · have hbeq : (ch == a + s) = false := beq_eq_false_iff_ne.mpr h
      simp only [hbeq]
      rw [ih (s + 1) ch]
      by_cases hc : a + s ≤ ch ∧ ch < a + s + (m + 1)
      · rw [if_pos (by omega), if_pos hc]
      · rw [if_neg (by omega), if_neg hc]

theorem CHAR_TO_VAL_eq (ch : Nat) :
    CHAR_TO_VAL ch =
      if 0x4E00 ≤ ch ∧ ch < 0x4E00 + 8192 then some (ch - 0x4E00) else none := by
  rw [CHAR_TO_VAL, chinese_table_eq, List.range_eq_range']
  have := lookup_range_map 0x4E00 8192 0 ch
  simpa using this

theorem CHAR_TO_VAL_of_lt {v : Nat} (hv : v < 8192) :
    CHAR_TO_VAL (0x4E00 + v) = some v := by
  rw [CHAR_TO_VAL_eq, if_pos (by omega)]
  have h2 : 0x4E00 + v - 0x4E00 = v := by omega
  rw [h2]

theorem CHAR_TO_VAL_eq_some {ch v : Nat} (h : CHAR_TO_VAL ch = some v) :
    v < 8192 ∧ ch = 0x4E00 + v := by
  rw [CHAR_TO_VAL_eq] at h
  by_cases hc : 0x4E00 ≤ ch ∧ ch < 0x4E00 + 8192
  · rw [if_pos hc] at h
    have hv : ch - 0x4E00 = v := Option.some_injective _ h
    omega
  · rw [if_neg hc] at h
    exact absurd h (by simp)

theorem mem_CHINESE_CHARS {ch : Nat} :
    ch ∈ CHINESE_CHARS ↔ 0x4E00 ≤ ch ∧ ch < 0x4E00 + 8192 := by
  rw [CHINESE_CHARS]
  simp only [List.mem_map, List.mem_range]
  constructor
  · rintro ⟨i, hi, rfl⟩
    omega
  · intro h
    exact ⟨ch - 0x4E00, by omega, by omega⟩

theorem CHAR_TO_VAL_eq_none {ch : Nat} (h : ch ∉ CHINESE_CHARS) :
    CHAR_TO_VAL ch = none := by
  rw [CHAR_TO_VAL_eq, if_neg]
  intro hc
  exact h (mem_CHINESE_CHARS.mpr hc)

theorem CHINESE_CHARS_getD {i : Nat} (hi : i < 8192) :
    CHINESE_CHARS.getD i 0 = 0x4E00 + i := by
  rw [CHINESE_CHARS, List.getD_eq_getElem?_getD, List.getElem?_map,
    List.getElem?_range hi]
  rfl

theorem CHINESE_CHARS_nodup : CHINESE_CHARS.Nodup := by
  rw [CHINESE_CHARS]
  exact List.Nodup.map (fun a b h => by omega) (List.nodup_range 8192)

/-! ## Option mapM lemmas -/

theorem mapM_option_eq_some_map {f : α → Option β} {g : α → β} :
    ∀ {l : List α}, (∀ x ∈ l, f x = some (g x)) → l.mapM f = some (l.map g) := by
  intro l
  induction l with
  | nil => intro _; rfl
  | cons a as ih =>
    intro h
    rw [List.mapM_cons, h a (by simp), ih (fun x hx => h x (by simp [hx]))]
    rfl

theorem mapM_option_eq_none {f : α → Option β} {x : α} :
    ∀ {l : List α}, x ∈ l → f x = none → l.mapM f = none := by
  intro l
  induction l with
  | nil => intro h; exact absurd h (List.not_mem_nil x)
  | cons a as ih =>
    intro hmem hfx
    rcases List.mem_cons.mp hmem with rfl | hmem2
    · rw [List.mapM_cons, hfx]
      rfl
    · cases hfa : f a with
      | none => rw [List.mapM_cons, hfa]; rfl
      | some v => rw [List.mapM_cons, hfa, ih hmem2 hfx]; rfl

theorem mapM_option_map {f : γ → Option β} {s : α → γ} {g : α → β} :
    ∀ {l : List α}, (∀ x ∈ l, f (s x) = some (g x)) → (l.map s).mapM f = some (l.map g) := by
  intro l
  induction l with
  | nil => intro _; rfl
  | cons a as ih =>
    intro h
    rw [List.map_cons, List.mapM_cons, h a (by simp), ih (fun x hx => h x (by simp [hx]))]
    rfl

/-! ## Codec lemmas -/

theorem bits8_length (data : List Nat) :
    (data.flatMap (natToBits 8)).length = 8 * data.length :=
  flatMap_length_const _ _ (fun x _ => natToBits_length 8 x)

theorem to_chinese_eq (data : List Nat) :
    to_chinese_base8192 data =
      (chunksOf 13 (data.flatMap (natToBits 8) ++
        List.replicate ((13 - (data.flatMap (natToBits 8)).length % 13) % 13) false)).map
        (fun c => CHINESE_CHARS.getD (bitsToNat c) 0) := by
  simp only [to_chinese_base8192]
  split_ifs with h
  · have h1 : (13 - (data.flatMap (natToBits 8)).length % 13) % 13 =
        13 - (data.flatMap (natToBits 8)).length % 13 := by
      omega
    rw [h1]
  · have h1 : (13 - (data.flatMap (natToBits 8)).length % 13) % 13 = 0 := by
      omega
    rw [h1, List.replicate_zero, List.append_nil]

theorem padding_tail_bytes {p : Nat} (hp : p < 13) :
    ((chunksOf 8 (List.replicate p false)).filter (fun c => c.length == 8)).map bitsToNat =
      if p < 8 then [] else [0] := by
  rcases Nat.eq_zero_or_pos p with rfl | hpos
  · simp [chunksOf_nil]
  · rcases lt_or_le p 8 with h8 | h8
    · rw [chunksOf_eq_singleton (by simp; omega) (by simp; omega), if_pos h8,
        List.filter_cons]
      have hne : ((List.replicate p false).length == 8) = false := by
        rw [beq_eq_false_iff_ne, List.length_replicate]
        omega
      rw [hne]
      simp
    · rw [if_neg (by omega), chunksOf_eq_cons (by omega) (by simp; omega),
        List.take_replicate, List.drop_replicate,
        show (8 ⊓ p) = 8 by omega, List.filter_cons]
      have hyes : ((List.replicate 8 false).length == 8) = true := by
        rw [beq_iff_eq, List.length_replicate]
      have htail : (chunksOf 8 (List.replicate (p - 8) false)).filter
          (fun c => c.length == 8) = [] := by
        rcases Nat.eq_zero_or_pos (p - 8) with hz | hpos2
        · rw [hz]
          simp [chunksOf_nil]
        · rw [chunksOf_eq_singleton (by simp; omega) (by simp; omega), List.filter_cons]
          have hne : ((List.replicate (p - 8) false).length == 8) = false := by
            rw [beq_eq_false_iff_ne, List.length_replicate]
            omega
          rw [hne]
          simp
      rw [hyes, if_pos rfl, htail, List.map_cons, List.map_nil, bitsToNat_replicate_false]

theorem decode_encode (data : List Nat) (h : ∀ b ∈ data, b < 256) :
    from_chinese_base8192 (to_chinese_base8192 data) =
      some (data ++
        if (8 * data.length) % 13 = 0 ∨ 5 < (8 * data.length) % 13 then [] else [0]) := by
  have hblen : (data.flatMap (natToBits 8)).length = 8 * data.length := bits8_length data
  set bits := data.flatMap (natToBits 8) with hbits
  set p := (13 - bits.length % 13) % 13 with hpdef
  set padded := bits ++ List.replicate p false with hpadded
  have hplen : padded.length = 8 * data.length + p := by
    rw [hpadded, List.length_append, List.length_replicate, hblen]
  have hp13 : p < 13 := by omega
  have hdvd13 : (13 : Nat) ∣ padded.length := by
    rw [hplen]
    omega
  have hchunklen : ∀ c ∈ chunksOf 13 padded, c.length = 13 :=
    fun c hc => length_mem_chunksOf (by omega) hdvd13 hc
  have hval_lt : ∀ c ∈ chunksOf 13 padded, bitsToNat c < 8192 := by
    intro c hc
    have := bitsToNat_lt c
    rw [hchunklen c hc] at this
    exact this
  rw [to_chinese_eq data, ← hbits, ← hpdef, ← hpadded]
  have hmapm : ((chunksOf 13 padded).map
      (fun c => CHINESE_CHARS.getD (bitsToNat c) 0)).mapM CHAR_TO_VAL =
      some ((chunksOf 13 padded).map bitsToNat) := by
    apply mapM_option_map
    intro c hc
    rw [CHINESE_CHARS_getD (hval_lt c hc)]
    exact CHAR_TO_VAL_of_lt (hval_lt c hc)
  have hunchunk : ((chunksOf 13 padded).map bitsToNat).flatMap (natToBits 13) = padded := by
    apply flatMap_map_chunksOf (by omega) bitsToNat (natToBits 13) _ padded hdvd13
    intro c hc
    rw [← hc]
    exact natToBits_bitsToNat c
  rw [from_chinese_base8192, hmapm]
  simp only [Option.bind_eq_bind, Option.some_bind, Option.pure_def, hunchunk]
  have hsplit : chunksOf 8 padded = chunksOf 8 bits ++ chunksOf 8 (List.replicate p false) := by
    rw [hpadded]
    exact chunksOf_append_left (by omega) bits _ (by rw [hblen]; omega)
  have hbitschunks : chunksOf 8 bits = data.map (natToBits 8) := by
    rw [hbits]
    exact chunksOf_flatMap (by omega) (natToBits 8) (fun x => natToBits_length 8 x) data
  have hkeep : (data.map (natToBits 8)).filter (fun c => c.length == 8) =
      data.map (natToBits 8) := by
    rw [List.filter_eq_self]
    intro c hc
    rcases List.mem_map.mp hc with ⟨b, _, rfl⟩
    rw [beq_iff_eq, natToBits_length]
  have hback : ((data.map (natToBits 8)).map bitsToNat) = data := by
    rw [List.map_map]
    have : data.map (bitsToNat ∘ natToBits 8) = data.map (fun b => b) := by
      apply List.map_congr_left
      intro b hb
      simp only [Function.comp_apply]
      exact bitsToNat_natToBits (lt_of_lt_of_le (h b hb) (by norm_num))
    rw [this, List.map_id']
  rw [hsplit, List.filter_append, List.map_append, hbitschunks, hkeep, hback,
    padding_tail_bytes hp13]
  have hcond : p < 8 ↔ ((8 * data.length) % 13 = 0 ∨ 5 < (8 * data.length) % 13) := by
    rw [hpdef, hblen]
    rcases Nat.eq_zero_or_pos (8 * data.length % 13) with h0 | h0
    · rw [h0]
      decide
    · rw [Nat.mod_eq_of_lt (by omega)]
      omega
  by_cases hcase : (8 * data.length) % 13 = 0 ∨ 5 < (8 * data.length) % 13
  · rw [if_pos hcase, if_pos (hcond.mpr hcase)]
  · rw [if_neg hcase, if_neg (fun hp8 => hcase (hcond.mp hp8))]

theorem decode_encode_exact (data : List Nat) (h : ∀ b ∈ data, b < 256)
    (hgood : (8 * data.length) % 13 = 0 ∨ 5 < (8 * data.length) % 13) :
    from_chinese_base8192 (to_chinese_base8192 data) = some data := by
  have hde := decode_encode data h
  rw [if_pos hgood, List.append_nil] at hde
  exact hde

/-! ## Precision reducer lemmas -/

theorem reduced_getD (conv : Nat → Nat) (data : List (String × NDArray)) (i : Nat)
    (hi : i < data.length) :
    (float16_dict_from_npz conv data).getD i defaultEntry =
      ((data.getD i defaultEntry).1,
       if (data.getD i defaultEntry).2.kind == 'f' then
         astype_float16 conv (data.getD i defaultEntry).2
       else (data.getD i defaultEntry).2) := by
  have hgd : data.getD i defaultEntry = data[i] := by
    rw [List.getD_eq_getElem?_getD, List.getElem?_eq_getElem hi]
    rfl
  rw [hgd, List.getD_eq_getElem?_getD, float16_dict_from_npz, List.getElem?_map,
    List.getElem?_eq_getElem hi]
  rfl

theorem nonfloat_getD (conv : Nat → Nat) (data : List (String × NDArray)) (i : Nat)
    (hi : i < data.length) (hk : (data.getD i defaultEntry).2.kind ≠ 'f') :
    (float16_dict_from_npz conv data).getD i defaultEntry = data.getD i defaultEntry := by
  rw [reduced_getD conv data i hi,
    show ((data.getD i defaultEntry).2.kind == 'f') = false from beq_eq_false_iff_ne.mpr hk,
    if_neg (by simp)]

/-! ## Claims -/

/-- C1: the claim states that decoding the encoding of any byte sequence
returns that sequence exactly. The code violates this: for the two-byte
input `[1, 2]` the encoder emits 16 payload bits plus 10 padding bits
(more than one whole byte), and the decoder turns the first 8 padding bits
into a spurious trailing zero byte, returning `[1, 2, 0]`. -/
theorem claim_C1_roundtrip_violated_at_two_bytes :
    from_chinese_base8192 (to_chinese_base8192 [1, 2]) = some [1, 2, 0] := by
  have hde := decode_encode [1, 2] (by decide)
  rw [if_neg (by decide)] at hde
  exact hde

/-- C2: encoding a byte sequence of length `N` produces exactly
`ceil(8 * N / 13)` symbols, and `13` times that count equals `8 * N` plus
the padding amount `(13 - (8 * N) % 13) % 13`. -/
theorem claim_C2_symbol_count (data : List Nat) (h : ∀ b ∈ data, b < 256) :
    (to_chinese_base8192 data).length = (8 * data.length + 12) / 13 ∧
    13 * (to_chinese_base8192 data).length =
      8 * data.length + (13 - (8 * data.length) % 13) % 13 := by
  have hblen := bits8_length data
  rw [to_chinese_eq data, List.length_map, chunksOf_length, List.length_append,
    List.length_replicate, hblen]
  rcases Nat.eq_zero_or_pos (8 * data.length % 13) with h0 | h0
  · rw [h0]
    constructor <;> omega
  · rw [Nat.mod_eq_of_lt (show 13 - 8 * data.length % 13 < 13 by omega)]
    constructor <;> omega

/-- Witness for C2 at the one-byte input `[7]`. -/
theorem claim_C2_symbol_count_witness :
    (to_chinese_base8192 [7]).length = (8 * List.length ([7] : List Nat) + 12) / 13 ∧
    13 * (to_chinese_base8192 [7]).length =
      8 * List.length ([7] : List Nat) +
        (13 - (8 * List.length ([7] : List Nat)) % 13) % 13 :=
  claim_C2_symbol_count [7] (by decide)

/-- C3: the 8192 alphabet symbols are pairwise distinct, and looking the
symbol at index `i` up in the symbol-to-index table returns `i` for every
`i` below 8192. -/
theorem claim_C3_alphabet_bijection :
    CHINESE_CHARS.Nodup ∧
    ∀ i, i < 8192 → CHAR_TO_VAL (CHINESE_CHARS.getD i 0) = some i := by
  refine ⟨CHINESE_CHARS_nodup, fun i hi => ?_⟩
  rw [CHINESE_CHARS_getD hi]
  exact CHAR_TO_VAL_of_lt hi

/-- Witness for C3 at index 4000. -/
theorem claim_C3_alphabet_bijection_witness :
    CHINESE_CHARS.Nodup ∧ CHAR_TO_VAL (CHINESE_CHARS.getD 4000 0) = some 4000 :=
  ⟨claim_C3_alphabet_bijection.1, claim_C3_alphabet_bijection.2 4000 (by decide)⟩

/-- C4: decoding a text containing at least one character outside the
8192-symbol alphabet fails (the `KeyError` on the dictionary lookup,
modelled as `none`) and produces no partial output. -/
theorem claim_C4_unknown_symbol (text : List Nat) (ch : Nat) (hmem : ch ∈ text)
    (hout : ch ∉ CHINESE_CHARS) : from_chinese_base8192 text = none := by
  have hnone := mapM_option_eq_none hmem (CHAR_TO_VAL_eq_none hout)
  rw [from_chinese_base8192, hnone]
  rfl

/-- Witness for C4 on the one-character text made of the Latin letter A
(code point 0x41), which is outside the alphabet. -/
theorem claim_C4_unknown_symbol_witness :
    (0x41 : Nat) ∉ CHINESE_CHARS ∧ from_chinese_base8192 [0x41] = none := by
  have hout : (0x41 : Nat) ∉ CHINESE_CHARS := by
    rw [mem_CHINESE_CHARS]
    decide
  exact ⟨hout, claim_C4_unknown_symbol [0x41] 0x41 (by decide) hout⟩

/-- C5: every entry of the weight mapping whose element type is not
floating point (dtype kind other than `f`) is passed through the precision
reducer unchanged: same key and identical array. -/
theorem claim_C5_nonfloat_passthrough (conv : Nat → Nat)
    (data : List (String × NDArray)) (i : Nat) (hi : i < data.length)
    (hk : (data.getD i defaultEntry).2.kind ≠ 'f') :
    (float16_dict_from_npz conv data).getD i defaultEntry = data.getD i defaultEntry :=
  nonfloat_getD conv data i hi hk

/-- Witness for C5 on a one-entry mapping holding an int32 array. -/
theorem claim_C5_nonfloat_passthrough_witness :
    (([("a", (⟨'i', 4, [2], [1, 2]⟩ : NDArray))].getD 0 defaultEntry).2.kind ≠ 'f') ∧
    (float16_dict_from_npz id [("a", ⟨'i', 4, [2], [1, 2]⟩)]).getD 0 defaultEntry =
      [("a", (⟨'i', 4, [2], [1, 2]⟩ : NDArray))].getD 0 defaultEntry :=
  ⟨by decide, claim_C5_nonfloat_passthrough id [("a", ⟨'i', 4, [2], [1, 2]⟩)] 0
    (by decide) (by decide)⟩

/-- C6: decoding a text made only of alphabet symbols succeeds and returns
exactly `floor(13 * len(text) / 8)` bytes: the decoded bit string is cut
into 8-bit groups and only the short trailing group is discarded. -/
theorem claim_C6_decode_byte_count (text : List Nat)
    (h : ∀ ch ∈ text, ch ∈ CHINESE_CHARS) :
    ∃ bs, from_chinese_base8192 text = some bs ∧
      bs.length = 13 * text.length / 8 := by
  have hmapm : text.mapM CHAR_TO_VAL = some (text.map (fun ch => ch - 0x4E00)) := by
    apply mapM_option_eq_some_map
    intro ch hch
    rw [CHAR_TO_VAL_eq, if_pos (mem_CHINESE_CHARS.mp (h ch hch))]
  refine ⟨((chunksOf 8 ((text.map (fun ch => ch - 0x4E00)).flatMap
      (natToBits 13))).filter (fun b => b.length == 8)).map bitsToNat, ?_, ?_⟩
  · rw [from_chinese_base8192, hmapm]
    rfl
  · rw [List.length_map, length_filter_chunksOf (by omega),
      flatMap_length_const (natToBits 13) _ (fun x _ => natToBits_length 13 x),
      List.length_map]

/-- Witness for C6 on the one-symbol text holding the first alphabet
character. -/
theorem claim_C6_decode_byte_count_witness :
    ∃ bs, from_chinese_base8192 [0x4E00] = some bs ∧
      bs.length = 13 * List.length ([0x4E00] : List Nat) / 8 := by
  apply claim_C6_decode_byte_count
  intro ch hch
  rw [mem_CHINESE_CHARS]
  rcases List.mem_cons.mp hch with rfl | h2
  · decide
  · exact absurd h2 (List.not_mem_nil ch)

/-- C7 counterexample: the claim states that an element type the reducer
cannot classify as floating versus non-floating makes it fail with an
`UnsupportedElementType` condition, with no silent pass-through. The code
has no such failure path: an object-dtype entry (kind `O`) is silently
passed through unchanged. -/
theorem claim_C7_counterexample :
    float16_dict_from_npz id [("x", ⟨'O', 8, [1], [5]⟩)] =
      [("x", ⟨'O', 8, [1], [5]⟩)] := by
  decide

/-- C7 amended: the reducer classifies every element type by the single
test `kind == f` and never fails: entries with exotic kinds (complex,
object, bytes, str, void, timedelta, datetime) are passed through
unchanged rather than raising any condition. -/
theorem claim_C7_exotic_kind_passthrough (conv : Nat → Nat)
    (data : List (String × NDArray)) (i : Nat) (hi : i < data.length)
    (hk : (data.getD i defaultEntry).2.kind ∈
      (['c', 'O', 'S', 'U', 'V', 'm', 'M'] : List Char)) :
    (float16_dict_from_npz conv data).getD i defaultEntry = data.getD i defaultEntry := by
  apply nonfloat_getD conv data i hi
  intro hf
  rw [hf] at hk
  exact absurd hk (by decide)

/-- Witness for the amended C7 on a one-entry mapping holding a complex
array (kind `c`). -/
theorem claim_C7_exotic_kind_passthrough_witness :
    (([("z", (⟨'c', 16, [1], [3]⟩ : NDArray))].getD 0 defaultEntry).2.kind ∈
      (['c', 'O', 'S', 'U', 'V', 'm', 'M'] : List Char)) ∧
    (float16_dict_from_npz id [("z", ⟨'c', 16, [1], [3]⟩)]).getD 0 defaultEntry =
      [("z", (⟨'c', 16, [1], [3]⟩ : NDArray))].getD 0 defaultEntry :=
  ⟨by decide, claim_C7_exotic_kind_passthrough id [("z", ⟨'c', 16, [1], [3]⟩)] 0
    (by decide) (by decide)⟩

/-- C8: encoding the empty byte sequence gives the empty text, and
decoding the empty text gives the empty byte sequence. -/
theorem claim_C8_empty_input :
    to_chinese_base8192 [] = [] ∧ from_chinese_base8192 [] = some [] := by
  constructor
  · rfl
  · rfl

/-- C9: the two copies of the decode routine, in `optimizer.py` and in
`inference.py`, are extensionally equal: they return the same result on
every input text, failing in exactly the same cases. -/
theorem claim_C9_decode_copies_agree :
    ∀ text, from_chinese_base8192 text = Inference.from_chinese_base8192 text :=
  fun _ => rfl

/-- C10: every floating-point entry (kind `f`) of the weight mapping is
converted to exactly the 16-bit floating type: the output dtype is the
fixed constant float16 (kind `f`, item size 2 bytes), whatever the
original floating width was. -/
theorem claim_C10_float_entries_to_float16 (conv : Nat → Nat)
    (data : List (String × NDArray)) (i : Nat) (hi : i < data.length)
    (hk : (data.getD i defaultEntry).2.kind = 'f') :
    ((float16_dict_from_npz conv data).getD i defaultEntry).2.kind = 'f' ∧
    ((float16_dict_from_npz conv data).getD i defaultEntry).2.itemsize = 2 := by
  rw [reduced_getD conv data i hi,
    show ((data.getD i defaultEntry).2.kind == 'f') = true from beq_iff_eq.mpr hk,
    if_pos rfl]
  exact ⟨rfl, rfl⟩

/-- Witness for C10 on a one-entry mapping holding a float64 array
(item size 8): the output entry has kind `f` and item size 2. -/
theorem claim_C10_float_entries_to_float16_witness :
    (([("w", (⟨'f', 8, [3], [1, 2, 3]⟩ : NDArray))].getD 0 defaultEntry).2.kind = 'f') ∧
    ((float16_dict_from_npz id [("w", ⟨'f', 8, [3], [1, 2, 3]⟩)]).getD 0
        defaultEntry).2.kind = 'f' ∧
    ((float16_dict_from_npz id [("w", ⟨'f', 8, [3], [1, 2, 3]⟩)]).getD 0
        defaultEntry).2.itemsize = 2 :=
  ⟨by decide, claim_C10_float_entries_to_float16 id [("w", ⟨'f', 8, [3], [1, 2, 3]⟩)] 0
    (by decide) (by decide)⟩
